import Mathlib

/-!
Verification of the ingestion-and-transform pipeline of the
powerbi-finance-dashboard repository against its specification.

The Python source is embedded shallowly:
* pandas `DataFrame` rows become Lean structures, a frame becomes a `List`
  of rows whose list position is the dense zero-based index;
* numeric values (floats) are idealized as exact rationals `ℚ`; a float
  `NaN` ("undefined" cell) is `Option.none`;
* dates (`pd.Timestamp`, normalized to midnight) become integers `ℤ`
  (days since an epoch), an order-isomorphic encoding;
* exceptions become `Except String`;
* `pandas.DataFrame.sort_values` (default `kind='quicksort'`) is modelled
  by the contract pandas documents for it: the output is an ascending
  permutation of the rows, with no stability guarantee among equal sort
  keys (`isSortValuesOutput`).  Results that depend on the relative order
  of equal-key rows are therefore quantified over all admissible sort
  outputs.  The concrete `sortBy` (insertion sort) is the particular
  stable realization of the contract; it is used directly only where the
  proved conclusions do not depend on the order among equal sort keys.
-/

namespace PFD

/-! ## Generic list machinery used by the transform embedding

`isSortValuesOutput` is the documented contract of
`df.sort_values(col)` with the default unstable `kind='quicksort'` (an
ascending permutation of the rows); `sortBy key` is the stable insertion
sort, one admissible realization of that contract;
`dedupKeepLast key` models `df.drop_duplicates(subset, keep="last")`
(which keeps, for every key, the last row in current row order), and
`lastWith p` returns the last element of a list satisfying `p`
(the "occurrence seen last in payload order"). -/

/-- Stable insertion of `a` into `l`, before the first element whose key
is `≥ key a`.  Helper of `sortBy`. -/
def insertBy {α : Type} (key : α → ℤ) (a : α) : List α → List α
  | [] => [a]
  | b :: l => if key a ≤ key b then a :: b :: l else b :: insertBy key a l

/-- Stable sort by an integer key, ascending: one admissible output of
`df.sort_values(col)`, the one a stable sort kind would produce.  Pandas
does not guarantee this realization for the default `kind='quicksort'`;
see `isSortValuesOutput` for the guaranteed contract. -/
def sortBy {α : Type} (key : α → ℤ) : List α → List α
  | [] => []
  | a :: l => insertBy key a (sortBy key l)

/-- Model of `df.drop_duplicates(subset=key, keep="last")`: a row survives iff no
later row has the same key. -/
def dedupKeepLast {α κ : Type} [DecidableEq κ] (key : α → κ) : List α → List α
  | [] => []
  | a :: l =>
      if l.any (fun b => decide (key b = key a)) then dedupKeepLast key l
      else a :: dedupKeepLast key l

/-- Last element of `l` satisfying `p`, if any. -/
def lastWith {α : Type} (p : α → Bool) : List α → Option α
  | [] => none
  | a :: l =>
      match lastWith p l with
      | some b => some b
      | none => if p a then some a else none

/-! ## Canonical price rows and the payload parsers
(`src/pipeline/transforms.py`)

A `Ticker` is the already-validated instrument descriptor
(`src/pipeline/tickers.py`); a `Row` is one canonical price row.  Since
`open` is a Lean keyword, the OHLC fields carry a `Px` suffix. -/

structure Ticker where
  symbol : String
  name : Option String
  assetClass : String
  group : String
  currency : String
  market : Option String
deriving DecidableEq

structure Row where
  date : ℤ
  ticker : String
  openPx : ℚ
  highPx : ℚ
  lowPx : ℚ
  closePx : ℚ
  adjClose : ℚ
  volume : Option ℚ
  currency : String
  assetClass : String
  source : String
deriving DecidableEq

/-- The deduplication key `subset=["date", "ticker"]`. -/
def rowKey (r : Row) : ℤ × String := (r.date, r.ticker)

/-- The contract pandas documents for `df.sort_values("date")` with the
default `kind='quicksort'`, as called by `_finalize_prices`: the output
is a permutation of the rows, ascending in date.  Quicksort is not
stable, so nothing constrains the relative order of rows with equal
dates. -/
def isSortValuesOutput (s l : List Row) : Prop :=
  s.Perm l ∧ s.Pairwise (fun a b => a.date ≤ b.date)

/-- One admissible execution of `_finalize_prices`: sort by date
ascending (here: the stable realization of the sort contract),
deduplicate by `(date, ticker)` keeping the last occurrence, reset to a
dense zero-based index (implicit in the list representation).  The
program's executions are exactly `dedupKeepLast rowKey s` for the `s`
admitted by `isSortValuesOutput`. -/
def finalizePrices (df : List Row) : List Row :=
  dedupKeepLast rowKey (sortBy (fun r => r.date) df)

/-- One per-day metrics mapping of an equity payload: mandatory OHLC,
optional `"5. adjusted close"`, and the two possible volume spellings
`"6. volume"` / `"5. volume"`. -/
structure EqMetrics where
  openPx : ℚ
  highPx : ℚ
  lowPx : ℚ
  closePx : ℚ
  adjClose : Option ℚ
  volume6 : Option ℚ
  volume5 : Option ℚ
deriving DecidableEq

/-- One row built by `parse_equity`: adjusted close falls back to close,
volume falls back through the two field names, else NaN (`none`). -/
def mkEqRow (t : Ticker) (src : Option String) (e : ℤ × EqMetrics) : Row :=
  { date := e.1
    ticker := t.symbol
    openPx := e.2.openPx
    highPx := e.2.highPx
    lowPx := e.2.lowPx
    closePx := e.2.closePx
    adjClose := e.2.adjClose.getD e.2.closePx
    volume := (e.2.volume6).orElse (fun _ => e.2.volume5)
    currency := t.currency
    assetClass := t.assetClass
    source := src.getD "TIME_SERIES_DAILY" }

/-- Embedding of `parse_equity` on a located time-series mapping, whose entries are in
payload (dict) order with dates already parsed; `src` is the payload's
optional `source_function` tag. -/
def parseEquity (series : List (ℤ × EqMetrics)) (t : Ticker)
    (src : Option String) : List Row :=
  finalizePrices (series.map (mkEqRow t src))

/-- One per-day metrics mapping of an FX payload. -/
structure FxMetrics where
  openPx : ℚ
  highPx : ℚ
  lowPx : ℚ
  closePx : ℚ
deriving DecidableEq

/-- One row built by `parse_fx`: adjusted close is a copy of close,
volume is always NaN (`none`). -/
def mkFxRow (t : Ticker) (src : Option String) (e : ℤ × FxMetrics) : Row :=
  { date := e.1
    ticker := t.symbol
    openPx := e.2.openPx
    highPx := e.2.highPx
    lowPx := e.2.lowPx
    closePx := e.2.closePx
    adjClose := e.2.closePx
    volume := none
    currency := t.currency
    assetClass := t.assetClass
    source := src.getD "FX_DAILY" }

/-- Embedding of `parse_fx` on the located `"Time Series FX (Daily)"` mapping. -/
def parseFx (series : List (ℤ × FxMetrics)) (t : Ticker)
    (src : Option String) : List Row :=
  finalizePrices (series.map (mkFxRow t src))

/-- One per-day metrics mapping of a crypto payload: each OHLC component
has a market-qualified spelling (e.g. `"1a. open (USD)"`) and a
market-agnostic fallback (`"1. open"`), either possibly absent; volume
falls back to a market-cap field, defaulting to zero. -/
structure CrMetrics where
  openM : Option ℚ
  openF : Option ℚ
  highM : Option ℚ
  highF : Option ℚ
  lowM : Option ℚ
  lowF : Option ℚ
  closeM : Option ℚ
  closeF : Option ℚ
  volume5 : Option ℚ
  marketCap : Option ℚ
deriving DecidableEq

/-- The inner `_get` of `parse_crypto`: market-qualified field first,
fallback field second, hard error when both are absent. -/
def cryptoGet (m fb : Option ℚ) : Except String ℚ :=
  match m with
  | some v => Except.ok v
  | none =>
      match fb with
      | some v => Except.ok v
      | none => Except.error "Missing expected crypto field"

/-- One row built by `parse_crypto` (may fail on a missing OHLC field). -/
def mkCrRow (t : Ticker) (src : Option String) (market : String)
    (e : ℤ × CrMetrics) : Except String Row := do
  let o ← cryptoGet e.2.openM e.2.openF
  let h ← cryptoGet e.2.highM e.2.highF
  let l ← cryptoGet e.2.lowM e.2.lowF
  let c ← cryptoGet e.2.closeM e.2.closeF
  Except.ok
    { date := e.1
      ticker := t.symbol
      openPx := o
      highPx := h
      lowPx := l
      closePx := c
      adjClose := c
      volume := some (((e.2.volume5).orElse (fun _ => e.2.marketCap)).getD 0)
      currency := market
      assetClass := t.assetClass
      source := src.getD "DIGITAL_CURRENCY_DAILY" }

/-- Embedding of `parse_crypto` on the located `"Time Series (Digital Currency Daily)"`
mapping with the payload's `market` tag. -/
def parseCrypto (series : List (ℤ × CrMetrics)) (t : Ticker)
    (src : Option String) (market : String) : Except String (List Row) := do
  let rows ← series.mapM (mkCrRow t src market)
  Except.ok (finalizePrices rows)

/-- A fixed descriptor used by concrete evaluations. -/
def tickerA : Ticker :=
  { symbol := "AAA", name := none, assetClass := "Equity", group := "g"
    currency := "USD", market := none }

/-- A fixed crypto descriptor used by concrete evaluations. -/
def tickerC : Ticker :=
  { symbol := "BTC", name := none, assetClass := "Crypto", group := "g"
    currency := "USD", market := some "USD" }

/-- Equity metrics with close `c`, used to distinguish duplicate dates. -/
def eqM (c : ℚ) : EqMetrics :=
  { openPx := c, highPx := c, lowPx := c, closePx := c
    adjClose := none, volume6 := none, volume5 := some 7 }

/-- A crypto per-day metrics value with every qualified field present. -/
def crM : CrMetrics :=
  { openM := some 5, openF := none, highM := some 6, highF := none
    lowM := some 4, lowF := none, closeM := some 5, closeF := none
    volume5 := some 9, marketCap := none }

/-! ## Feature engine: running peak and drawdown
(`src/pipeline/features.py`, `add_features`) -/

/-- Tail of `close.cummax()` after a running maximum `m`. -/
def cummaxAux (m : ℚ) : List ℚ → List ℚ
  | [] => []
  | c :: cs => max m c :: cummaxAux (max m c) cs

/-- Embeds `g["peak_to_date"] = close.cummax()` — the cumulative maximum of close
up to and including the current row. -/
def cummax : List ℚ → List ℚ
  | [] => []
  | c :: cs => c :: cummaxAux c cs

/-- Embeds `g["drawdown_pct"] = close / g["peak_to_date"] - 1.0`. -/
def drawdownPct (closes : List ℚ) : List ℚ :=
  List.zipWith (fun c p => c / p - 1) closes (cummax closes)

/-! ## Volatility regime (`src/pipeline/features.py`, `_vol_regime`)

`quantile` embeds `pandas.Series.quantile(q)` (linear interpolation over
the sorted non-NaN values, NaN on an empty series); `leOptB`/`geOptB`
embed the float comparisons `vol <= q_low` / `vol >= q_high`, which are
`False` whenever either side is NaN; `volRegime` embeds the
`np.select([vol <= q_low, vol >= q_high], ["Low", "High"], default="Med")`
dispatch, whose first matching condition wins. -/

/-- Insertion of a rational into a sorted list (helper of `sortQ`). -/
def insertQ (a : ℚ) : List ℚ → List ℚ
  | [] => [a]
  | b :: l => if a ≤ b then a :: b :: l else b :: insertQ a l

/-- Ascending sort of rationals, used by the quantile computation. -/
def sortQ : List ℚ → List ℚ
  | [] => []
  | a :: l => insertQ a (sortQ l)

/-- Embeds `Series.quantile(q, interpolation="linear")` on the non-NaN values
`xs`, for `0 ≤ q ≤ 1`: with `n + 1` sorted values `v` and `h = n * q`,
the result is `v[⌊h⌋] + (h − ⌊h⌋) * (v[⌊h⌋ + 1] − v[⌊h⌋])`; `none` when
empty.  The floor of the nonnegative `h` is written `h.num.toNat / h.den`
so that it evaluates by kernel reduction. -/
def quantile (q : ℚ) (xs : List ℚ) : Option ℚ :=
  match xs.length with
  | 0 => none
  | Nat.succ n =>
      let v := sortQ xs
      let hq : ℚ := (n : ℚ) * q
      let pos : ℕ := hq.num.toNat / hq.den
      let frac : ℚ := hq - (pos : ℚ)
      let lo := v.getD pos 0
      some (lo + frac * (v.getD (pos + 1) lo - lo))

/-- Float `a <= b` with NaN modelled as `none`: false if either is NaN. -/
def leOptB (v q : Option ℚ) : Bool :=
  match v, q with
  | some a, some b => decide (a ≤ b)
  | _, _ => false

/-- Float `a >= b` with NaN modelled as `none`: false if either is NaN. -/
def geOptB (v q : Option ℚ) : Bool :=
  match v, q with
  | some a, some b => decide (b ≤ a)
  | _, _ => false

/-- Embedding of `_vol_regime`: per-instrument static quantiles of the instrument's own
`vol_60` series, then `np.select`, condition order Low before High,
default `"Med"`. -/
def volRegime (vol : List (Option ℚ)) : List String :=
  let defined := vol.filterMap id
  let qlow := quantile (33 / 100) defined
  let qhigh := quantile (67 / 100) defined
  vol.map (fun v =>
    if leOptB v qlow then "Low"
    else if geOptB v qhigh then "High"
    else "Med")

/-- Embeds the `series.rolling(n).agg(...)` definedness envelope: entry `i` is the
aggregate of the trailing `n`-observation window when `i + 1 ≥ n`, NaN
otherwise.  The aggregator `f` (sample standard deviation times `√252`
for `vol_20`/`vol_60`) is kept abstract. -/
def rollingAgg (n : ℕ) (f : List ℚ → ℚ) (xs : List ℚ) : List (Option ℚ) :=
  (List.range xs.length).map (fun i =>
    if n ≤ i + 1 then some (f ((xs.take (i + 1)).drop (i + 1 - n))) else none)

/-! ## Latest snapshot (`src/pipeline/analytics.py`,
`build_fact_latest_snapshot`)

One instrument group of the feature-annotated frame; only the columns the
snapshot reads are modelled.  The year-to-date target date (January 1 of
the last row's year, computed by the source from the timestamp's
calendar) is an explicit parameter `target` of the embedded
`_pct_vs_date`. -/

structure SnapRow where
  date : ℤ
  close : ℚ
  drawdown : ℚ
  vol60 : Option ℚ
deriving DecidableEq

/-- Embeds `g = group.sort_values("date")` for one ticker's rows. -/
def snapSort (g : List SnapRow) : List SnapRow :=
  sortBy (fun r => r.date) g

/-- Embedding of `_pct_vs(offset_days)`: `None` when the group is not longer than the
offset, else the change of the last close versus the close of
`g.iloc[-1 - offset]`, guarded to `None` when that reference close is
zero. -/
def pctVs (g : List SnapRow) (offset : ℕ) : Option ℚ :=
  let s := snapSort g
  if s.length ≤ offset then none
  else
    match s.getLast?, s[s.length - 1 - offset]? with
    | some last, some ref =>
        if ref.close = 0 then none else some (last.close / ref.close - 1)
    | _, _ => none

/-- Embedding of `_pct_vs_date(target_date)`: `None` when no row has date on or before
the target, else the change of the last close versus the last such row's
close, guarded to `None` when that reference close is zero. -/
def pctVsDate (g : List SnapRow) (target : ℤ) : Option ℚ :=
  let s := snapSort g
  let subset := s.filter (fun r => decide (r.date ≤ target))
  match subset.getLast?, s.getLast? with
  | some ref, some last =>
      if ref.close = 0 then none else some (last.close / ref.close - 1)
  | _, _ => none

/-- Field `max_dd_1y`: minimum of the drawdown column over the rows dated
within 365 calendar days of the last date; `None` only on an empty
window. -/
def maxDd1y (g : List SnapRow) : Option ℚ :=
  let s := snapSort g
  match s.getLast? with
  | none => none
  | some last =>
      match s.filter (fun r => decide (last.date - 365 ≤ r.date)) with
      | [] => none
      | w :: ws => some ((ws.map (fun r => r.drawdown)).foldl min w.drawdown)

/-! ## Fetch client (`src/pipeline/alphavantage_client.py`)

`_request` is embedded as a loop over an upstream oracle
`resp : ℕ → UpResponse` giving the response to the i-th rate-limited
call; time-dependent effects are counted (calls, backoff sleeps). -/

/-- A parsed provider JSON body: the three ad hoc marker keys
(`"Information"`, `"Note"`, `"Error Message"`) plus the remaining content
(abstracted as a string). -/
structure AVPayload where
  information : Option String
  note : Option String
  errorMessage : Option String
  data : String
deriving DecidableEq

/-- One upstream HTTP response: status code and parsed body, `none` when
the body is not valid JSON. -/
structure UpResponse where
  status : ℕ
  body : Option AVPayload
deriving DecidableEq

/-- The `_request` retry loop from attempt index `attempt` with
`remaining` attempts left (the source iterates
`attempt in range(1, max_retries + 1)`); result is paired with the
number of rate-limited upstream calls made and the number of backoff
sleeps performed.  Checks in source order: invalid JSON, `"Information"`
notice, HTTP 429 / `"Note"` throttle (retrying unless on the last
attempt, whose throttle message is raised), `"Error Message"`, success. -/
def requestAux (resp : ℕ → UpResponse) :
    ℕ → ℕ → Except String AVPayload × ℕ × ℕ
  | _, 0 => (Except.error "Failed to fetch data after retries.", 0, 0)
  | attempt, remaining + 1 =>
      let r := resp attempt
      match r.body with
      | none => (Except.error "Invalid JSON response", 1, 0)
      | some p =>
          match p.information with
          | some msg => (Except.error msg, 1, 0)
          | none =>
              if r.status = 429 ∨ p.note ≠ none then
                if remaining = 0 then
                  (Except.error (p.note.getD "Rate limited"), 1, 0)
                else
                  let pr := requestAux resp (attempt + 1) remaining
                  (pr.1, pr.2.1 + 1, pr.2.2 + 1)
              else
                match p.errorMessage with
                | some msg => (Except.error msg, 1, 0)
                | none => (Except.ok p, 1, 0)

/-- Embedding of `AlphaVantageClient._request` with `max_retries` attempts. -/
def avRequest (resp : ℕ → UpResponse) (maxRetries : ℕ) :
    Except String AVPayload × ℕ × ℕ :=
  requestAux resp 0 maxRetries

/-- A response treated as transient throttling by `_request`: valid JSON,
no `"Information"` notice, and HTTP 429 or a `"Note"` marker. -/
def throttledResp (r : UpResponse) : Bool :=
  match r.body with
  | some p => p.information.isNone && (r.status == 429 || p.note.isSome)
  | none => false

/-- A response `_request` returns as a payload: valid JSON and none of
the markers nor HTTP 429. -/
def successResp (r : UpResponse) : Bool :=
  match r.body with
  | some p =>
      p.information.isNone && !(r.status == 429) && p.note.isNone &&
        p.errorMessage.isNone
  | none => false

/-- The message a throttled response contributes on exhaustion:
`payload.get("Note", "Rate limited")`. -/
def throttleMsg (r : UpResponse) : String :=
  match r.body with
  | some p => p.note.getD "Rate limited"
  | none => "Rate limited"

/-- A raw payload tagged by `fetch_equity_daily` with the producing
provider function and the symbol. -/
structure TaggedPayload where
  payload : AVPayload
  sourceFunction : String
  symbol : String
deriving DecidableEq

/-- Embedding of `fetch_equity_daily`: the three-tier fallback ladder, parameterized
by the outcome of each tier's `_request` call — `r0` the adjusted
full-history endpoint (`TIME_SERIES_DAILY_ADJUSTED`, `outputsize=full`),
`r1` the unadjusted full-history endpoint (`TIME_SERIES_DAILY`,
`outputsize=full`), `r2` the unadjusted compact-history endpoint
(`TIME_SERIES_DAILY`, `outputsize=compact`).  Returns the first success
tagged with its tier's `source_function`, paired with the number of
tiers attempted; after three failures re-raises the last error. -/
def fetchEquityDaily (symbol : String) (r0 r1 r2 : Except String AVPayload) :
    Except String TaggedPayload × ℕ :=
  match r0 with
  | Except.ok p => (Except.ok ⟨p, "TIME_SERIES_DAILY_ADJUSTED", symbol⟩, 1)
  | Except.error _ =>
      match r1 with
      | Except.ok p => (Except.ok ⟨p, "TIME_SERIES_DAILY", symbol⟩, 2)
      | Except.error _ =>
          match r2 with
          | Except.ok p => (Except.ok ⟨p, "TIME_SERIES_DAILY", symbol⟩, 3)
          | Except.error e => (Except.error e, 3)

/-! ## Configuration validation (`src/pipeline/settings.py`,
`src/etl/alphavantage.py`) -/

structure SettingsData where
  apiKey : String
  timeout : ℚ
  minInterval : ℚ
  maxRetries : ℕ
  backoff : ℚ
deriving DecidableEq

/-- Embedding of `load_settings` with the pydantic `Settings` model: the only
constraint is that the credential environment variable is present
(`alpha_vantage_api_key` is the sole required field; no emptiness or
positivity validators are declared). -/
def loadSettings (envApiKey : Option String) (timeout minInterval backoff : ℚ)
    (maxRetries : ℕ) : Except String SettingsData :=
  match envApiKey with
  | none =>
      Except.error "Configuration error: alpha_vantage_api_key field required"
  | some k => Except.ok ⟨k, timeout, minInterval, maxRetries, backoff⟩

/-- Embedding of `AlphaVantageClient.__post_init__` of the legacy `etl` client:
rejects a falsy (empty) key and a non-positive timeout; the minimum call
interval and backoff are not parameters of this client. -/
def etlClientInit (apiKey : String) (timeout : ℚ) : Except String Unit :=
  if apiKey = "" then
    Except.error "An API key is required to create AlphaVantageClient."
  else if timeout ≤ 0 then Except.error "timeout must be positive."
  else Except.ok ()

/-- Embedding of `AlphaVantageClient.__post_init__` of the pipeline client, which constructs
the rate limiter and HTTP session and performs no validation of the
credential or the timing values. -/
def pipelineClientInit (_s : SettingsData) : Except String Unit :=
  Except.ok ()

/-! ## Rate limiter (`src/pipeline/alphavantage_client.py`,
`RateLimiter`)

Monotonic time is an explicit rational parameter `now`; `sleep` is
idealized as exact, so `wait()` invoked at time `now` returns at
`now + waitSleep`, which is the value the source stores in
`_last_call`. -/

structure RateLimiterState where
  minInterval : ℚ
  lastCall : ℚ
deriving DecidableEq

/-- Embedding of `RateLimiter.__init__`: `_last_call` starts at the sentinel `0.0`. -/
def rateLimiterInit (mi : ℚ) : RateLimiterState := ⟨mi, 0⟩

/-- The sleep performed by `wait()` at monotonic time `now`:
`remaining = min_interval − (now − last_call)`, slept iff positive. -/
def waitSleep (st : RateLimiterState) (now : ℚ) : ℚ :=
  let remaining := st.minInterval - (now - st.lastCall)
  if 0 < remaining then remaining else 0

/-- Embedding of `wait()`: returns the sleep duration and the updated state, whose
`_last_call` is the monotonic time at return. -/
def waitRun (st : RateLimiterState) (now : ℚ) : ℚ × RateLimiterState :=
  (waitSleep st now, ⟨st.minInterval, now + waitSleep st now⟩)

/-- A simulated upstream that throttles the first call (HTTP 429 with a
`"Note"`) and succeeds afterwards. -/
def respThrottleOnce : ℕ → UpResponse := fun i =>
  if i = 0 then ⟨429, some ⟨none, some "thr", none, "x"⟩⟩
  else ⟨200, some ⟨none, none, none, "payload"⟩⟩

/-! ## Theorems

Lemmas about the embedded operations, followed by the claim theorems
and their witnesses. -/

theorem lastWith_eq_find?_reverse {α : Type} (p : α → Bool) (l : List α) :
    lastWith p l = l.reverse.find? p := by
  induction l with
  | nil => rfl
  | cons a l ih =>
      rw [lastWith, ih, List.reverse_cons, List.find?_append]
      cases l.reverse.find? p with
      | some b => rfl
      | none => cases h : p a <;> simp [List.find?, h]

theorem lastWith_eq_none_iff {α : Type} (p : α → Bool) (l : List α) :
    lastWith p l = none ↔ ∀ b ∈ l, ¬ p b = true := by
  rw [lastWith_eq_find?_reverse]
  simp

theorem lastWith_eq_some {α : Type} (p : α → Bool) (l : List α) (c : α)
    (h : lastWith p l = some c) : c ∈ l ∧ p c = true := by
  rw [lastWith_eq_find?_reverse] at h
  exact ⟨List.mem_reverse.mp (List.mem_of_find?_eq_some h),
    List.find?_some h⟩

theorem lastWith_map {α β : Type} (p : β → Bool) (f : α → β) (l : List α) :
    lastWith p (l.map f) = (lastWith (fun a => p (f a)) l).map f := by
  induction l with
  | nil => rfl
  | cons a l ih =>
      rw [List.map_cons, lastWith, lastWith, ih]
      cases lastWith (fun a => p (f a)) l with
      | some b => rfl
      | none =>
          simp only [Option.map_none]
          by_cases h : p (f a) <;> simp [h]

theorem mem_insertBy {α : Type} (key : α → ℤ) (a x : α) (l : List α) :
    x ∈ insertBy key a l ↔ x = a ∨ x ∈ l := by
  induction l with
  | nil => simp [insertBy]
  | cons b l ih =>
      by_cases h : key a ≤ key b
      · rw [insertBy, if_pos h]; simp
      · rw [insertBy, if_neg h]
        simp only [List.mem_cons, ih]
        tauto

theorem mem_sortBy {α : Type} (key : α → ℤ) (x : α) (l : List α) :
    x ∈ sortBy key l ↔ x ∈ l := by
  induction l with
  | nil => simp [sortBy]
  | cons a l ih => rw [sortBy, mem_insertBy, ih]; simp

theorem pairwise_le_insertBy {α : Type} (key : α → ℤ) (a : α) (l : List α)
    (h : l.Pairwise (fun x y => key x ≤ key y)) :
    (insertBy key a l).Pairwise (fun x y => key x ≤ key y) := by
  induction l with
  | nil => simp [insertBy]
  | cons b l ih =>
      rcases List.pairwise_cons.mp h with ⟨hb, hl⟩
      by_cases hab : key a ≤ key b
      · rw [insertBy, if_pos hab]
        refine List.pairwise_cons.mpr ⟨?_, h⟩
        intro y hy
        rcases List.mem_cons.mp hy with rfl | hy
        · exact hab
        · exact le_trans hab (hb y hy)
      · rw [insertBy, if_neg hab]
        refine List.pairwise_cons.mpr ⟨?_, ih hl⟩
        intro y hy
        rcases (mem_insertBy key a y l).mp hy with rfl | hy
        · exact le_of_not_le hab
        · exact hb y hy

theorem pairwise_le_sortBy {α : Type} (key : α → ℤ) (l : List α) :
    (sortBy key l).Pairwise (fun x y => key x ≤ key y) := by
  induction l with
  | nil => simp [sortBy]
  | cons a l ih => exact pairwise_le_insertBy key a _ ih

/-- Stability of `sortBy`, phrased through `filter`: a predicate that only
accepts elements of a single key value sees the same subsequence before
and after sorting. -/
theorem filter_insertBy_of_key {α : Type} (key : α → ℤ) (p : α → Bool) (a : α)
    (l : List α) (hp : ∀ b, p b = true → key b = key a) :
    (insertBy key a l).filter p = if p a then a :: l.filter p else l.filter p := by
  induction l with
  | nil =>
      rw [insertBy]
      simp [List.filter_cons]
  | cons b l ih =>
      by_cases hab : key a ≤ key b
      · rw [insertBy, if_pos hab]
        by_cases hpa : p a <;> simp [List.filter_cons, hpa]
      · rw [insertBy, if_neg hab]
        have hpb : p b = false := by
          cases hpb : p b with
          | false => rfl
          | true => exact absurd (le_of_eq (hp b hpb).symm) hab
        by_cases hpa : p a <;> simp [List.filter_cons, hpb, ih, hpa]

theorem filter_insertBy_neg {α : Type} (key : α → ℤ) (p : α → Bool) (a : α)
    (l : List α) (hpa : p a = false) :
    (insertBy key a l).filter p = l.filter p := by
  induction l with
  | nil => rw [insertBy]; simp [List.filter_cons, hpa]
  | cons b l ih =>
      by_cases hab : key a ≤ key b
      · rw [insertBy, if_pos hab]
        simp [List.filter_cons, hpa]
      · rw [insertBy, if_neg hab]
        simp [List.filter_cons, ih]

theorem filter_sortBy_of_key {α : Type} (key : α → ℤ) (p : α → Bool)
    (l : List α) (hp : ∀ b c, p b = true → p c = true → key b = key c) :
    (sortBy key l).filter p = l.filter p := by
  induction l with
  | nil => rfl
  | cons a l ih =>
      rw [sortBy]
      by_cases hpa : p a
      · rw [filter_insertBy_of_key key p a _ (fun b hb => hp b a hb hpa)]
        simp [List.filter_cons, hpa, ih]
      · rw [filter_insertBy_neg key p a _ (by simpa using hpa)]
        simp [List.filter_cons, hpa, ih]

/-- The value of `lastWith` for a single-key predicate is unchanged by the stable sort. -/
theorem lastWith_sortBy_of_key {α : Type} (key : α → ℤ) (p : α → Bool)
    (l : List α) (hp : ∀ b c, p b = true → p c = true → key b = key c) :
    lastWith p (sortBy key l) = lastWith p l := by
  rw [lastWith_eq_find?_reverse, lastWith_eq_find?_reverse,
    ← List.filter_getLast?, ← List.filter_getLast?,
    filter_sortBy_of_key key p l hp]

theorem dedupKeepLast_sublist {α κ : Type} [DecidableEq κ] (key : α → κ)
    (l : List α) : (dedupKeepLast key l).Sublist l := by
  induction l with
  | nil => simp [dedupKeepLast]
  | cons a l ih =>
      rw [dedupKeepLast]
      by_cases h : l.any (fun b => decide (key b = key a))
      · rw [if_pos h]; exact ih.cons a
      · rw [if_neg h]; exact ih.cons₂ a

theorem mem_dedupKeepLast {α κ : Type} [DecidableEq κ] (key : α → κ)
    (x : α) (l : List α) :
    x ∈ dedupKeepLast key l ↔
      lastWith (fun b => decide (key b = key x)) l = some x := by
  induction l with
  | nil => simp [dedupKeepLast, lastWith]
  | cons a l ih =>
      rw [dedupKeepLast, lastWith]
      by_cases hdup : l.any (fun b => decide (key b = key a))
      · rw [if_pos hdup]
        cases hl : lastWith (fun b => decide (key b = key x)) l with
        | some c => rw [ih, hl]
        | none =>
            rw [ih, hl]
            by_cases hax : key a = key x
            · -- impossible: hdup provides an element of `l` with key `a = x`
              exfalso
              rcases List.any_eq_true.mp hdup with ⟨b, hbl, hb⟩
              have hbx : key b = key x := by
                rw [of_decide_eq_true hb, hax]
              exact ((lastWith_eq_none_iff _ l).mp hl b hbl) (by simp [hbx])
            · simp [hax]
      · rw [if_neg hdup]
        have hnone : ∀ b ∈ l, key b ≠ key a := by
          intro b hb hbe
          exact hdup (List.any_eq_true.mpr ⟨b, hb, by simp [hbe]⟩)
        cases hl : lastWith (fun b => decide (key b = key x)) l with
        | some c =>
            simp only [hl]
            constructor
            · intro hx
              rcases List.mem_cons.mp hx with rfl | hx
              · exfalso
                rcases lastWith_eq_some _ l c hl with ⟨hcl, hc⟩
                exact hnone c hcl (of_decide_eq_true hc)
              · rw [← hl, ← ih]; exact hx
            · intro h
              exact List.mem_cons.mpr (Or.inr (ih.mpr (hl.trans h)))
        | none =>
            simp only [hl]
            by_cases hax : key a = key x
            · rw [if_pos (decide_eq_true hax)]
              constructor
              · intro hx
                rcases List.mem_cons.mp hx with rfl | hx
                · rfl
                · exact absurd (ih.mp hx) (by simp [hl])
              · intro h
                exact List.mem_cons.mpr (Or.inl (Option.some.inj h).symm)
            · rw [if_neg (fun h => hax (of_decide_eq_true h))]
              constructor
              · intro hx
                rcases List.mem_cons.mp hx with rfl | hx
                · exact absurd rfl hax
                · exact absurd (ih.mp hx) (by simp [hl])
              · intro h
                exact absurd h (by simp)

theorem pairwise_ne_dedupKeepLast {α κ : Type} [DecidableEq κ] (key : α → κ)
    (l : List α) :
    (dedupKeepLast key l).Pairwise (fun x y => key x ≠ key y) := by
  induction l with
  | nil => simp [dedupKeepLast]
  | cons a l ih =>
      rw [dedupKeepLast]
      by_cases h : l.any (fun b => decide (key b = key a))
      · rw [if_pos h]; exact ih
      · rw [if_neg h]
        refine List.pairwise_cons.mpr ⟨?_, ih⟩
        intro y hy hay
        have hyl : y ∈ l := (dedupKeepLast_sublist key l).subset hy
        exact h (List.any_eq_true.mpr ⟨y, hyl, by simp [hay.symm]⟩)

/-- The function `lastWith` only looks at the truth table of its predicate. -/
theorem lastWith_congr {α : Type} (p q : α → Bool) (l : List α)
    (h : ∀ a, p a = q a) : lastWith p l = lastWith q l := by
  rw [funext h]

/-- The three normalization guarantees of `_finalize_prices` over any row
list in payload order. -/
theorem finalizePrices_spec (rows : List Row) :
    (finalizePrices rows).Pairwise (fun a b => rowKey a ≠ rowKey b) ∧
    (finalizePrices rows).Pairwise (fun a b => a.date ≤ b.date) ∧
    ∀ r, r ∈ finalizePrices rows ↔
      lastWith (fun b => decide (rowKey b = rowKey r)) rows = some r := by
  refine ⟨pairwise_ne_dedupKeepLast rowKey _, ?_, ?_⟩
  · exact List.Pairwise.sublist (dedupKeepLast_sublist rowKey _)
      (pairwise_le_sortBy (fun r => r.date) rows)
  · intro r
    rw [finalizePrices, mem_dedupKeepLast,
      lastWith_sortBy_of_key (fun r => r.date) _ rows]
    intro b c hb hc
    have hb' := of_decide_eq_true hb
    have hc' := of_decide_eq_true hc
    have : rowKey b = rowKey c := hb'.trans hc'.symm
    exact congrArg Prod.fst this

theorem rowKey_mkEqRow (t : Ticker) (s : Option String) (e : ℤ × EqMetrics) :
    rowKey (mkEqRow t s e) = (e.1, t.symbol) := rfl

theorem rowKey_mkFxRow (t : Ticker) (s : Option String) (e : ℤ × FxMetrics) :
    rowKey (mkFxRow t s e) = (e.1, t.symbol) := rfl

theorem insertBy_perm {α : Type} (key : α → ℤ) (a : α) (l : List α) :
    (insertBy key a l).Perm (a :: l) := by
  induction l with
  | nil => exact List.Perm.refl _
  | cons b l ih =>
      by_cases h : key a ≤ key b
      · rw [insertBy, if_pos h]
      · rw [insertBy, if_neg h]
        exact (List.Perm.cons b ih).trans (List.Perm.swap a b l)

theorem sortBy_perm {α : Type} (key : α → ℤ) (l : List α) :
    (sortBy key l).Perm l := by
  induction l with
  | nil => exact List.Perm.refl _
  | cons a l ih =>
      rw [sortBy]
      exact (insertBy_perm key a _).trans (List.Perm.cons a ih)

theorem lastWith_isSome_of_mem {α : Type} (p : α → Bool) (l : List α)
    (x : α) (hx : x ∈ l) (hp : p x = true) :
    ∃ r, lastWith p l = some r := by
  cases h : lastWith p l with
  | some r => exact ⟨r, rfl⟩
  | none => exact absurd hp ((lastWith_eq_none_iff p l).mp h x hx)

/-- Coverage of `dedupKeepLast`: every key occurring in the input is
represented by a surviving row. -/
theorem exists_key_mem_dedupKeepLast {α κ : Type} [DecidableEq κ]
    (key : α → κ) (l : List α) (x : α) (hx : x ∈ l) :
    ∃ r, r ∈ dedupKeepLast key l ∧ key r = key x := by
  obtain ⟨r, hr⟩ :=
    lastWith_isSome_of_mem (fun b => decide (key b = key x)) l x hx (by simp)
  have hkey : key r = key x := of_decide_eq_true (lastWith_eq_some _ l r hr).2
  refine ⟨r, ?_, hkey⟩
  have hsame :
      lastWith (fun b => decide (key b = key r)) l =
        lastWith (fun b => decide (key b = key x)) l :=
    lastWith_congr _ _ l (fun a => by rw [hkey])
  rw [mem_dedupKeepLast, hsame, hr]

/-- The guarantees `_finalize_prices` gives over any admissible output
`s` of its unstable sort of `rows`: surviving rows have pairwise-distinct
keys, are date-ascending, are rows of the payload; every payload key is
covered by exactly one survivor; and a payload row whose key occurs only
once survives verbatim. -/
theorem dedup_sorted_spec (rows s : List Row)
    (hs : isSortValuesOutput s rows) :
    (dedupKeepLast rowKey s).Pairwise (fun a b => rowKey a ≠ rowKey b) ∧
    (dedupKeepLast rowKey s).Pairwise (fun a b => a.date ≤ b.date) ∧
    (∀ r ∈ dedupKeepLast rowKey s, r ∈ rows) ∧
    (∀ x ∈ rows, ∃ r ∈ dedupKeepLast rowKey s, rowKey r = rowKey x) ∧
    (∀ x ∈ rows, (∀ y ∈ rows, rowKey y = rowKey x → y = x) →
      x ∈ dedupKeepLast rowKey s) := by
  obtain ⟨hperm, hsort⟩ := hs
  refine ⟨pairwise_ne_dedupKeepLast rowKey s,
    List.Pairwise.sublist (dedupKeepLast_sublist rowKey s) hsort, ?_, ?_, ?_⟩
  · intro r hr
    exact hperm.mem_iff.mp ((dedupKeepLast_sublist rowKey s).subset hr)
  · intro x hx
    obtain ⟨r, hrd, hrk⟩ :=
      exists_key_mem_dedupKeepLast rowKey s x (hperm.mem_iff.mpr hx)
    exact ⟨r, hrd, hrk⟩
  · intro x hx huniq
    obtain ⟨r, hrd, hrk⟩ :=
      exists_key_mem_dedupKeepLast rowKey s x (hperm.mem_iff.mpr hx)
    have hrrows : r ∈ rows :=
      hperm.mem_iff.mp ((dedupKeepLast_sublist rowKey s).subset hrd)
    rwa [huniq r hrrows hrk] at hrd

/-- C1 counterexample: on the equity payload holding date 1 twice (close
10 then close 20), the reversed row order is an admissible output of the
unstable `sort_values("date")` (a date-ascending permutation), and on it
`drop_duplicates(keep="last")` keeps the parse of the *first* payload
occurrence (close 10), while the claim requires the occurrence seen last
in payload order (close 20) — a different row.  The program therefore
does not guarantee last-payload-occurrence-wins for duplicate dates. -/
theorem c1_unstable_sort_counterexample :
    isSortValuesOutput
      [mkEqRow tickerA none (1, eqM 20), mkEqRow tickerA none (1, eqM 10)]
      ([(1, eqM 10), (1, eqM 20)].map (mkEqRow tickerA none)) ∧
    dedupKeepLast rowKey
        [mkEqRow tickerA none (1, eqM 20), mkEqRow tickerA none (1, eqM 10)] =
      [mkEqRow tickerA none (1, eqM 10)] ∧
    lastWith
        (fun b => decide (rowKey b = rowKey (mkEqRow tickerA none (1, eqM 10))))
        ([(1, eqM 10), (1, eqM 20)].map (mkEqRow tickerA none)) =
      some (mkEqRow tickerA none (1, eqM 20)) ∧
    mkEqRow tickerA none (1, eqM 10) ≠ mkEqRow tickerA none (1, eqM 20) :=
  ⟨⟨by decide, by decide⟩, by decide, by decide, by decide⟩

/-- C1 (amended): for every raw payload and instrument descriptor
accepted by a parse function (equity, FX, or crypto) and every admissible
output of the unstable date sort, the resulting price series has exactly
one row per (date, instrument) key — pairwise-distinct keys, every
payload key covered — rows ordered by date ascending with a dense
zero-based index (the list position), every surviving row being one of
that key's payload occurrences, and a date occurring exactly once in the
payload surviving with exactly that occurrence's values.  Which of
several same-key occurrences survives depends on the sort's placement of
equal dates; the stable realization (`sortBy`, last conjunct group) is
admissible and yields the occurrence seen last in payload order.  For
crypto the hypothesis names the in-payload-order parsed rows `rowsc`. -/
theorem c1_parse_normalization
    (seq : List (ℤ × EqMetrics)) (sfx : List (ℤ × FxMetrics))
    (scr : List (ℤ × CrMetrics)) (te tf tc : Ticker)
    (se sf sc : Option String) (market : String)
    (rowsc sE sF sC : List Row)
    (hc : scr.mapM (mkCrRow tc sc market) = Except.ok rowsc)
    (hsE : isSortValuesOutput sE (seq.map (mkEqRow te se)))
    (hsF : isSortValuesOutput sF (sfx.map (mkFxRow tf sf)))
    (hsC : isSortValuesOutput sC rowsc) :
    ((dedupKeepLast rowKey sE).Pairwise (fun a b => rowKey a ≠ rowKey b) ∧
     (dedupKeepLast rowKey sE).Pairwise (fun a b => a.date ≤ b.date) ∧
     (∀ r ∈ dedupKeepLast rowKey sE, r ∈ seq.map (mkEqRow te se)) ∧
     (∀ x ∈ seq.map (mkEqRow te se),
        ∃ r ∈ dedupKeepLast rowKey sE, rowKey r = rowKey x) ∧
     (∀ x ∈ seq.map (mkEqRow te se),
        (∀ y ∈ seq.map (mkEqRow te se), rowKey y = rowKey x → y = x) →
        x ∈ dedupKeepLast rowKey sE)) ∧
    ((dedupKeepLast rowKey sF).Pairwise (fun a b => rowKey a ≠ rowKey b) ∧
     (dedupKeepLast rowKey sF).Pairwise (fun a b => a.date ≤ b.date) ∧
     (∀ r ∈ dedupKeepLast rowKey sF, r ∈ sfx.map (mkFxRow tf sf)) ∧
     (∀ x ∈ sfx.map (mkFxRow tf sf),
        ∃ r ∈ dedupKeepLast rowKey sF, rowKey r = rowKey x) ∧
     (∀ x ∈ sfx.map (mkFxRow tf sf),
        (∀ y ∈ sfx.map (mkFxRow tf sf), rowKey y = rowKey x → y = x) →
        x ∈ dedupKeepLast rowKey sF)) ∧
    ((dedupKeepLast rowKey sC).Pairwise (fun a b => rowKey a ≠ rowKey b) ∧
     (dedupKeepLast rowKey sC).Pairwise (fun a b => a.date ≤ b.date) ∧
     (∀ r ∈ dedupKeepLast rowKey sC, r ∈ rowsc) ∧
     (∀ x ∈ rowsc, ∃ r ∈ dedupKeepLast rowKey sC, rowKey r = rowKey x) ∧
     (∀ x ∈ rowsc, (∀ y ∈ rowsc, rowKey y = rowKey x → y = x) →
        x ∈ dedupKeepLast rowKey sC)) ∧
    (isSortValuesOutput (sortBy (fun r => r.date) (seq.map (mkEqRow te se)))
        (seq.map (mkEqRow te se)) ∧
     (∀ r, r ∈ parseEquity seq te se ↔
        lastWith (fun b => decide (rowKey b = rowKey r))
          (seq.map (mkEqRow te se)) = some r) ∧
     (∀ r, r ∈ parseFx sfx tf sf ↔
        lastWith (fun b => decide (rowKey b = rowKey r))
          (sfx.map (mkFxRow tf sf)) = some r) ∧
     parseCrypto scr tc sc market = Except.ok (finalizePrices rowsc) ∧
     (∀ r, r ∈ finalizePrices rowsc ↔
        lastWith (fun b => decide (rowKey b = rowKey r)) rowsc = some r)) := by
  refine ⟨dedup_sorted_spec _ sE hsE, dedup_sorted_spec _ sF hsF,
    dedup_sorted_spec _ sC hsC,
    ⟨sortBy_perm _ _, pairwise_le_sortBy _ _⟩,
    (finalizePrices_spec _).2.2, (finalizePrices_spec _).2.2, ?_,
    (finalizePrices_spec _).2.2⟩
  rw [parseCrypto, hc]
  rfl

/-- Witness for the amended C1: on a payload holding date 1 twice and
date 0 once, with a concrete admissible (here stable) sort output, the
unique date-0 occurrence survives verbatim; the crypto hypothesis is
discharged on a one-entry payload. -/
theorem c1_parse_normalization_witness :
    mkEqRow tickerA none (0, eqM 5) ∈
      dedupKeepLast rowKey
        [mkEqRow tickerA none (0, eqM 5), mkEqRow tickerA none (1, eqM 10),
         mkEqRow tickerA none (1, eqM 20)] :=
  (c1_parse_normalization [(1, eqM 10), (0, eqM 5), (1, eqM 20)] []
      [((3 : ℤ), crM)] tickerA tickerA tickerC none none none "USD"
      [⟨3, "BTC", 5, 6, 4, 5, 5, some 9, "USD", "Crypto",
        "DIGITAL_CURRENCY_DAILY"⟩]
      [mkEqRow tickerA none (0, eqM 5), mkEqRow tickerA none (1, eqM 10),
       mkEqRow tickerA none (1, eqM 20)]
      []
      [⟨3, "BTC", 5, 6, 4, 5, 5, some 9, "USD", "Crypto",
        "DIGITAL_CURRENCY_DAILY"⟩]
      (by rfl) ⟨by decide, by decide⟩ ⟨by decide, by decide⟩
      ⟨by decide, by decide⟩).1.2.2.2.2
    (mkEqRow tickerA none (0, eqM 5)) (by decide) (by decide)

theorem cummaxAux_length (m : ℚ) (l : List ℚ) :
    (cummaxAux m l).length = l.length := by
  induction l generalizing m with
  | nil => rfl
  | cons c cs ih => simp [cummaxAux, ih]

theorem cummax_length (l : List ℚ) : (cummax l).length = l.length := by
  cases l with
  | nil => rfl
  | cons c cs => simp [cummax, cummaxAux_length]

theorem le_cummaxAux (m : ℚ) (l : List ℚ) (i : ℕ) (hi : i < l.length) :
    l.getD i 0 ≤ (cummaxAux m l).getD i 0 := by
  induction l generalizing m i with
  | nil => exact absurd hi (by simp)
  | cons c cs ih =>
      cases i with
      | zero => simp [cummaxAux]
      | succ j =>
          simp only [cummaxAux, List.getD_cons_succ]
          exact ih (max m c) j (by simpa using hi)

theorem cummaxAux_mem (m : ℚ) (l : List ℚ) (i : ℕ) (hi : i < l.length) :
    (cummaxAux m l).getD i 0 = m ∨ (cummaxAux m l).getD i 0 ∈ l := by
  induction l generalizing m i with
  | nil => exact absurd hi (by simp)
  | cons c cs ih =>
      cases i with
      | zero =>
          rcases max_choice m c with h | h
          · left; simpa [cummaxAux] using h
          · right; simp [cummaxAux, h]
      | succ j =>
          simp only [cummaxAux, List.getD_cons_succ]
          rcases ih (max m c) j (by simpa using hi) with h | h
          · rcases max_choice m c with h2 | h2
            · left; rw [h, h2]
            · right; rw [h, h2]; simp
          · exact Or.inr (List.mem_cons_of_mem c h)

theorem le_cummax (l : List ℚ) (i : ℕ) (hi : i < l.length) :
    l.getD i 0 ≤ (cummax l).getD i 0 := by
  cases l with
  | nil => exact absurd hi (by simp)
  | cons c cs =>
      cases i with
      | zero => simp [cummax]
      | succ j =>
          simp only [cummax, List.getD_cons_succ]
          exact le_cummaxAux c cs j (by simpa using hi)

theorem cummax_mem (l : List ℚ) (i : ℕ) (hi : i < l.length) :
    (cummax l).getD i 0 ∈ l := by
  cases l with
  | nil => exact absurd hi (by simp)
  | cons c cs =>
      cases i with
      | zero => simp [cummax]
      | succ j =>
          simp only [cummax, List.getD_cons_succ]
          rcases cummaxAux_mem c cs j (by simpa using hi) with h | h
          · rw [h]; simp
          · exact List.mem_cons_of_mem c h

theorem getD_zipWith_q (f : ℚ → ℚ → ℚ) (l₁ l₂ : List ℚ) (i : ℕ)
    (h₁ : i < l₁.length) (h₂ : i < l₂.length) :
    (List.zipWith f l₁ l₂).getD i 0 = f (l₁.getD i 0) (l₂.getD i 0) := by
  induction l₁ generalizing l₂ i with
  | nil => exact absurd h₁ (by simp)
  | cons a as ih =>
      cases l₂ with
      | nil => exact absurd h₂ (by simp)
      | cons b bs =>
          cases i with
          | zero => simp
          | succ j =>
              simp only [List.zipWith_cons_cons, List.getD_cons_succ]
              exact ih bs j (by simpa using h₁) (by simpa using h₂)

/-- C6: For every instrument series whose close prices are all strictly
positive and every row, the drawdown percentage (close divided by the
running maximum of close up to and including that row, minus 1) is ≤ 0,
and it equals 0 exactly when that row's close equals the running peak. -/
theorem c6_drawdown_nonpositive (closes : List ℚ)
    (hpos : ∀ c ∈ closes, 0 < c) (i : ℕ) (hi : i < closes.length) :
    (drawdownPct closes).getD i 0 ≤ 0 ∧
    ((drawdownPct closes).getD i 0 = 0 ↔
      closes.getD i 0 = (cummax closes).getD i 0) := by
  have hlen : i < (cummax closes).length := by rwa [cummax_length]
  have hdd : (drawdownPct closes).getD i 0 =
      closes.getD i 0 / (cummax closes).getD i 0 - 1 :=
    getD_zipWith_q _ closes (cummax closes) i hi hlen
  have hple : closes.getD i 0 ≤ (cummax closes).getD i 0 := le_cummax closes i hi
  have hppos : 0 < (cummax closes).getD i 0 :=
    hpos _ (cummax_mem closes i hi)
  constructor
  · rw [hdd]
    have : closes.getD i 0 / (cummax closes).getD i 0 ≤ 1 :=
      (div_le_one hppos).mpr hple
    linarith
  · rw [hdd]
    constructor
    · intro h
      have h1 : closes.getD i 0 / (cummax closes).getD i 0 = 1 := by linarith
      rw [div_eq_iff (ne_of_gt hppos), one_mul] at h1
      exact h1
    · intro h
      rw [h, div_self (ne_of_gt hppos)]
      ring

/-- Witness for C6 at `closes = [2, 1, 3]`, row 1 (close 1, peak 2):
drawdown `-1/2 ≤ 0`, zero iff at the peak. -/
theorem c6_drawdown_nonpositive_witness :
    (drawdownPct [2, 1, 3]).getD 1 0 ≤ 0 ∧
    ((drawdownPct [2, 1, 3]).getD 1 0 = 0 ↔
      ([2, 1, 3] : List ℚ).getD 1 0 = (cummax [2, 1, 3]).getD 1 0) :=
  c6_drawdown_nonpositive [2, 1, 3] (by decide) 1 (by decide)

theorem getD_map_lt {α β : Type} (f : α → β) (l : List α) (i : ℕ)
    (hi : i < l.length) (d : β) (e : α) :
    (l.map f).getD i d = f (l.getD i e) := by
  induction l generalizing i with
  | nil => exact absurd hi (by simp)
  | cons a as ih =>
      cases i with
      | zero => simp
      | succ j =>
          simp only [List.map_cons, List.getD_cons_succ]
          exact ih j (by simpa using hi)

/-- C2 counterexample: on the constant volatility series `[1, 1, 1]`
both per-instrument percentiles equal 1; row 0 has defined volatility 1,
at/above the 67th percentile, so the claim as stated requires label
`"High"`, but `_vol_regime` labels it `"Low"` because its first
`np.select` condition `vol <= q_low` matches (the claim's "strictly
below" threshold for the Low bucket also fails here: 1 is not strictly
below 1). -/
theorem c2_vol_regime_counterexample :
    quantile (33 / 100) ([some 1, some 1, some 1].filterMap id) = some 1 ∧
    quantile (67 / 100) ([some 1, some 1, some 1].filterMap id) = some 1 ∧
    ¬ ((1 : ℚ) < 1) ∧ (1 : ℚ) ≥ 1 ∧
    ([some 1, some 1, some (1 : ℚ)].getD 0 none = some 1) ∧
    (volRegime [some 1, some 1, some 1]).getD 0 "" = "Low" ∧
    ¬ (volRegime [some 1, some 1, some 1]).getD 0 "" = "High" := by
  have hL : volRegime [some 1, some 1, some 1] = ["Low", "Low", "Low"] := by
    norm_num [volRegime, quantile, sortQ, insertQ, leOptB, geOptB,
      List.filterMap, List.getD,
      show Int.toNat 33 = 33 from rfl, show Int.toNat 67 = 67 from rfl]
  refine ⟨?_, ?_, by norm_num, le_refl 1, rfl, by rw [hL]; rfl,
    by rw [hL]; decide⟩
  · norm_num [quantile, sortQ, insertQ, List.filterMap, List.getD,
      show Int.toNat 33 = 33 from rfl]
  · norm_num [quantile, sortQ, insertQ, List.filterMap, List.getD,
      show Int.toNat 67 = 67 from rfl]

/-- C2 (amended): the volatility-regime label is computed from the
instrument's own 60-day volatility series alone; a row with defined
volatility is labeled `"Low"` iff its volatility is at or below the
instrument's own 33rd percentile, `"High"` iff it is above the 33rd
percentile and at or above the 67th, and `"Med"` otherwise, so the three
label sets partition the series without overlap (rows with undefined
volatility fall into the `"Med"` default, both float comparisons being
false on NaN). -/
theorem c2_vol_regime_relative (vol : List (Option ℚ)) (i : ℕ)
    (hi : i < vol.length) :
    (volRegime vol).length = vol.length ∧
    ((volRegime vol).getD i "" = "Low" ↔
      leOptB (vol.getD i none) (quantile (33 / 100) (vol.filterMap id)) = true) ∧
    ((volRegime vol).getD i "" = "High" ↔
      (leOptB (vol.getD i none) (quantile (33 / 100) (vol.filterMap id)) = false ∧
       geOptB (vol.getD i none) (quantile (67 / 100) (vol.filterMap id)) = true)) ∧
    ((volRegime vol).getD i "" = "Med" ↔
      (leOptB (vol.getD i none) (quantile (33 / 100) (vol.filterMap id)) = false ∧
       geOptB (vol.getD i none) (quantile (67 / 100) (vol.filterMap id)) = false)) := by
  have hget : (volRegime vol).getD i "" =
      (fun v =>
        if leOptB v (quantile (33 / 100) (vol.filterMap id)) then "Low"
        else if geOptB v (quantile (67 / 100) (vol.filterMap id)) then "High"
        else "Med") (vol.getD i none) := by
    simp only [volRegime]
    exact getD_map_lt _ vol i hi "" none
  refine ⟨by simp [volRegime], ?_, ?_, ?_⟩ <;>
    rw [hget] <;>
    cases hb : leOptB (vol.getD i none) (quantile (33 / 100) (vol.filterMap id)) <;>
    cases hg : geOptB (vol.getD i none) (quantile (67 / 100) (vol.filterMap id)) <;>
    simp only [List.getD_eq_getElem?_getD] at hb hg <;>
    simp [hb, hg]

/-- Witness for the amended C2 at the series `[some 1, some 2, some 100]`,
row 0. -/
theorem c2_vol_regime_relative_witness :
    ((volRegime [some 1, some 2, some 100]).getD 0 "" = "Low" ↔
      leOptB (([some 1, some 2, some 100] : List (Option ℚ)).getD 0 none)
        (quantile (33 / 100) ([some 1, some 2, some 100].filterMap id)) = true) :=
  (c2_vol_regime_relative [some 1, some 2, some 100] 0 (by decide)).2.1

/-- C10: the regime column is never absent (same length as the volatility
series); a row with undefined (NaN) 60-day volatility is always labeled
`"Med"`; and the 60-observation rolling window is undefined on each of
the first 59 rows and on every row of a series shorter than 60
observations, for any aggregator `f`. -/
theorem c10_undefined_vol_regime_med (vs : List (Option ℚ))
    (f : List ℚ → ℚ) (rets : List ℚ) (i j : ℕ) (hj : j < vs.length)
    (hi : i < rets.length) (hshort : i + 1 < 60 ∨ rets.length < 60) :
    (volRegime vs).length = vs.length ∧
    (vs.getD j none = none → (volRegime vs).getD j "" = "Med") ∧
    (rollingAgg 60 f rets).getD i none = none := by
  refine ⟨by simp [volRegime], ?_, ?_⟩
  · intro hnan
    have hget : (volRegime vs).getD j "" =
        (fun v =>
          if leOptB v (quantile (33 / 100) (vs.filterMap id)) then "Low"
          else if geOptB v (quantile (67 / 100) (vs.filterMap id)) then "High"
          else "Med") (vs.getD j none) := by
      simp only [volRegime]
      exact getD_map_lt _ vs j hj "" none
    rw [hget, hnan]
    simp [leOptB, geOptB]
  · have hlt : i + 1 < 60 := by
      rcases hshort with h | h
      · exact h
      · omega
    have hri : i < (List.range rets.length).length := by simpa using hi
    have hval : (List.range rets.length).getD i 0 = i := by
      rw [List.getD_eq_getElem?_getD, List.getElem?_range hi]
      rfl
    rw [rollingAgg, getD_map_lt _ (List.range rets.length) i hri none 0, hval,
      if_neg (by omega)]

/-- Witness for C10: a one-row series with NaN volatility is labeled
`"Med"`, and on a 3-observation return series the 60-observation rolling
aggregate is undefined at row 0. -/
theorem c10_undefined_vol_regime_med_witness :
    (volRegime [none]).length = ([none] : List (Option ℚ)).length ∧
    (([none] : List (Option ℚ)).getD 0 none = none →
      (volRegime [none]).getD 0 "" = "Med") ∧
    (rollingAgg 60 (fun _ => 0) [1, 2, 3]).getD 0 none = none :=
  c10_undefined_vol_regime_med [none] (fun _ => 0) [1, 2, 3] 0 0
    (by decide) (by decide) (Or.inl (by decide))

theorem length_insertBy {α : Type} (key : α → ℤ) (a : α) (l : List α) :
    (insertBy key a l).length = l.length + 1 := by
  induction l with
  | nil => rfl
  | cons b l ih =>
      by_cases h : key a ≤ key b
      · rw [insertBy, if_pos h]; rfl
      · rw [insertBy, if_neg h]
        simp [ih]

theorem length_sortBy {α : Type} (key : α → ℤ) (l : List α) :
    (sortBy key l).length = l.length := by
  induction l with
  | nil => rfl
  | cons a l ih => rw [sortBy, length_insertBy, ih]; rfl

theorem mem_of_getLast?_eq_some {α : Type} {l : List α} {a : α}
    (h : l.getLast? = some a) : a ∈ l := by
  cases l with
  | nil => simp at h
  | cons x xs =>
      have hne : x :: xs ≠ [] := by simp
      rw [List.getLast?_eq_getLast _ hne] at h
      exact (Option.some.inj h) ▸ List.getLast_mem hne

/-- C7: in the one-row-per-instrument latest snapshot, each derived field
is undefined (`none`) whenever the instrument's history is too short to
supply the required reference row, and is never substituted with zero:
the 1/5/21-observation changes are `none` when the group has at most
1/5/21 rows, the year-to-date change is `none` when no row is dated on or
before the year-start target, the trailing-365-day minimum drawdown is
absent only for an empty group (the window always holds the last row),
and a defined change always arises from an existing reference row with
nonzero close as `last/ref − 1`. -/
theorem c7_snapshot_undefined_on_short_history
    (g : List SnapRow) (target : ℤ) (k : ℕ) (v : ℚ) :
    (g.length ≤ 1 → pctVs g 1 = none) ∧
    (g.length ≤ 5 → pctVs g 5 = none) ∧
    (g.length ≤ 21 → pctVs g 21 = none) ∧
    ((∀ r ∈ g, target < r.date) → pctVsDate g target = none) ∧
    (pctVs g k = some v →
      k < g.length ∧
      ∃ last ref, (snapSort g).getLast? = some last ∧
        (snapSort g)[(snapSort g).length - 1 - k]? = some ref ∧
        ref.close ≠ 0 ∧ v = last.close / ref.close - 1) ∧
    (g ≠ [] → maxDd1y g ≠ none) := by
  refine ⟨?_, ?_, ?_, ?_, ?_, ?_⟩
  · intro h
    simp only [pctVs]
    rw [if_pos (by rw [snapSort, length_sortBy]; exact h)]
  · intro h
    simp only [pctVs]
    rw [if_pos (by rw [snapSort, length_sortBy]; exact h)]
  · intro h
    simp only [pctVs]
    rw [if_pos (by rw [snapSort, length_sortBy]; exact h)]
  · intro h
    simp only [pctVsDate]
    have hfil : (snapSort g).filter (fun r => decide (r.date ≤ target)) = [] := by
      apply List.filter_eq_nil_iff.mpr
      intro r hr
      have : r ∈ g := (mem_sortBy _ r g).mp hr
      simp only [decide_eq_true_eq]
      exact not_le_of_lt (h r this)
    rw [hfil]
    simp
  · intro h
    simp only [pctVs] at h
    by_cases hlen : (snapSort g).length ≤ k
    · rw [if_pos hlen] at h
      exact absurd h (by simp)
    · rw [if_neg hlen] at h
      have hk : k < g.length := by
        rw [snapSort, length_sortBy] at hlen; omega
      refine ⟨hk, ?_⟩
      cases hgl : (snapSort g).getLast? with
      | none => rw [hgl] at h; exact absurd h (by simp)
      | some last =>
          cases href : (snapSort g)[(snapSort g).length - 1 - k]? with
          | none => rw [hgl, href] at h; exact absurd h (by simp)
          | some ref =>
              simp only [hgl, href] at h
              by_cases h0 : ref.close = 0
              · rw [if_pos h0] at h
                exact absurd h (by simp)
              · rw [if_neg h0] at h
                exact ⟨last, ref, rfl, rfl, h0,
                  (Option.some.inj h).symm⟩
  · intro hne
    simp only [maxDd1y]
    have hsne : snapSort g ≠ [] := by
      intro hs
      apply hne
      have := length_sortBy (fun r => r.date) g
      rw [snapSort] at hs
      rw [hs] at this
      exact List.length_eq_zero.mp this.symm
    cases hgl : (snapSort g).getLast? with
    | none => exact absurd (List.getLast?_eq_none_iff.mp hgl) hsne
    | some last =>
        have hlmem : last ∈ snapSort g := mem_of_getLast?_eq_some hgl
        have hwmem : last ∈
            (snapSort g).filter (fun r => decide (last.date - 365 ≤ r.date)) := by
          apply List.mem_filter.mpr
          refine ⟨hlmem, ?_⟩
          simp only [decide_eq_true_eq]
          omega
        cases hw : (snapSort g).filter (fun r => decide (last.date - 365 ≤ r.date)) with
        | nil => rw [hw] at hwmem; exact absurd hwmem (List.not_mem_nil last)
        | cons w ws =>
            simp only [hgl, hw]
            simp

/-- Witness for C7: a one-row group leaves the one-observation change
undefined. -/
theorem c7_snapshot_undefined_on_short_history_witness :
    pctVs [⟨0, 10, 0, none⟩] 1 = none :=
  (c7_snapshot_undefined_on_short_history [⟨0, 10, 0, none⟩] 0 1 0).1
    (by decide)

/-- C9: the 1/5/21-observation and year-to-date percentage changes are
also `none` whenever the chosen reference row's close equals zero, even
with sufficient history, and a defined value only ever arises from a
reference row with nonzero close, so the division by the reference close
is always guarded. -/
theorem c9_zero_reference_guard (g : List SnapRow) (target : ℤ) (k : ℕ)
    (ref : SnapRow) :
    (¬ (snapSort g).length ≤ k →
      (snapSort g)[(snapSort g).length - 1 - k]? = some ref →
      ref.close = 0 → pctVs g k = none) ∧
    (((snapSort g).filter (fun r => decide (r.date ≤ target))).getLast? =
        some ref →
      ref.close = 0 → pctVsDate g target = none) ∧
    (∀ v, pctVs g k = some v →
      ∃ r2, (snapSort g)[(snapSort g).length - 1 - k]? = some r2 ∧
        r2.close ≠ 0) ∧
    (∀ v, pctVsDate g target = some v →
      ∃ r2, ((snapSort g).filter
          (fun r => decide (r.date ≤ target))).getLast? = some r2 ∧
        r2.close ≠ 0) := by
  refine ⟨?_, ?_, ?_, ?_⟩
  · intro hlen href h0
    simp only [pctVs]
    rw [if_neg hlen]
    have hidx := List.getElem?_eq_some_iff.mp href
    have hsne : snapSort g ≠ [] := by
      intro hs
      rcases hidx with ⟨hlt, _⟩
      rw [hs] at hlt
      simp at hlt
    cases hgl : (snapSort g).getLast? with
    | none => exact absurd (List.getLast?_eq_none_iff.mp hgl) hsne
    | some last =>
        simp only [hgl, href]
        rw [if_pos h0]
  · intro href h0
    simp only [pctVsDate]
    have hsne : snapSort g ≠ [] := by
      intro hs
      have := mem_of_getLast?_eq_some href
      rw [hs] at this
      simp at this
    cases hgl : (snapSort g).getLast? with
    | none => exact absurd (List.getLast?_eq_none_iff.mp hgl) hsne
    | some last =>
        simp only [href, hgl]
        rw [if_pos h0]
  · intro v h
    simp only [pctVs] at h
    by_cases hlen : (snapSort g).length ≤ k
    · rw [if_pos hlen] at h
      exact absurd h (by simp)
    · rw [if_neg hlen] at h
      cases hgl : (snapSort g).getLast? with
      | none => rw [hgl] at h; exact absurd h (by simp)
      | some last =>
          cases href : (snapSort g)[(snapSort g).length - 1 - k]? with
          | none => rw [hgl, href] at h; exact absurd h (by simp)
          | some r2 =>
              simp only [hgl, href] at h
              by_cases h0 : r2.close = 0
              · rw [if_pos h0] at h
                exact absurd h (by simp)
              · exact ⟨r2, rfl, h0⟩
  · intro v h
    simp only [pctVsDate] at h
    cases href : ((snapSort g).filter
        (fun r => decide (r.date ≤ target))).getLast? with
    | none => rw [href] at h; exact absurd h (by simp)
    | some r2 =>
        cases hgl : (snapSort g).getLast? with
        | none => rw [href, hgl] at h; exact absurd h (by simp)
        | some last =>
            simp only [href, hgl] at h
            by_cases h0 : r2.close = 0
            · rw [if_pos h0] at h
              exact absurd h (by simp)
            · exact ⟨r2, rfl, h0⟩

/-- Witness for C9: with two rows and the reference close equal to zero,
the one-observation change is `none` despite sufficient history. -/
theorem c9_zero_reference_guard_witness :
    pctVs [⟨0, 0, 0, none⟩, ⟨1, 5, 0, none⟩] 1 = none :=
  (c9_zero_reference_guard [⟨0, 0, 0, none⟩, ⟨1, 5, 0, none⟩] 0 1
      ⟨0, 0, 0, none⟩).1 (by decide) (by decide) rfl

/-- C3: the equity fetch tries the adjusted full-history, unadjusted
full-history and unadjusted compact-history tiers in order, stopping at
the first success, whose tier tag the returned payload carries
(`TIME_SERIES_DAILY_ADJUSTED` for tier one, `TIME_SERIES_DAILY` for
tiers two and three — the compact tier's tag); with the first two tiers
failing and the compact tier succeeding exactly 3 attempts are made and
the compact-endpoint tag is returned; with all three failing the error
of the last (compact) attempt is raised. -/
theorem c3_equity_fallback_ladder (symbol : String) (p : AVPayload)
    (e0 e1 e2 : String) (r1 r2 : Except String AVPayload) :
    (fetchEquityDaily symbol (Except.ok p) r1 r2 =
      (Except.ok ⟨p, "TIME_SERIES_DAILY_ADJUSTED", symbol⟩, 1)) ∧
    (fetchEquityDaily symbol (Except.error e0) (Except.ok p) r2 =
      (Except.ok ⟨p, "TIME_SERIES_DAILY", symbol⟩, 2)) ∧
    (fetchEquityDaily symbol (Except.error e0) (Except.error e1)
        (Except.ok p) =
      (Except.ok ⟨p, "TIME_SERIES_DAILY", symbol⟩, 3)) ∧
    (fetchEquityDaily symbol (Except.error e0) (Except.error e1)
        (Except.error e2) =
      (Except.error e2, 3)) :=
  ⟨rfl, rfl, rfl, rfl⟩

/-- C5 counterexample: a present-but-empty credential together with
negative timeout, minimum call interval and backoff passes settings
validation, and the pipeline client's initialization accepts the result,
so no fatal configuration error occurs before fetching — against the
claim that the core fails fast on an empty credential or any
non-positive timing value. -/
theorem c5_no_failfast_counterexample :
    loadSettings (some "") (-1) (-1) (-1) 3 =
      Except.ok ⟨"", -1, -1, 3, -1⟩ ∧
    pipelineClientInit ⟨"", -1, -1, 3, -1⟩ = Except.ok () :=
  ⟨rfl, rfl⟩

/-- C5 (amended): at startup the settings loader fails only when the
credential environment variable is absent; a present (even empty)
credential and arbitrary timing values are accepted, and the pipeline
client performs no further validation.  Only the legacy `etl` client
fails fast, exactly when its credential is empty or its timeout is
non-positive; no component validates the minimum call interval or the
backoff interval. -/
theorem c5_validation_behavior (t mi bo : ℚ) (mr : ℕ) (k key : String) :
    loadSettings none t mi bo mr =
      Except.error "Configuration error: alpha_vantage_api_key field required" ∧
    loadSettings (some key) t mi bo mr = Except.ok ⟨key, t, mi, mr, bo⟩ ∧
    (etlClientInit k t = Except.ok () ↔ (¬ k = "" ∧ 0 < t)) ∧
    pipelineClientInit ⟨k, t, mi, mr, bo⟩ = Except.ok () := by
  refine ⟨rfl, rfl, ?_, rfl⟩
  constructor
  · intro h
    by_cases hk : k = ""
    · rw [etlClientInit, if_pos hk] at h
      exact absurd h (by simp)
    · by_cases ht : t ≤ 0
      · rw [etlClientInit, if_neg hk, if_pos ht] at h
        exact absurd h (by simp)
      · exact ⟨hk, lt_of_not_le ht⟩
  · rintro ⟨hk, ht⟩
    rw [etlClientInit, if_neg hk, if_neg (not_le.mpr ht)]

/-- C8 counterexample: on a freshly constructed limiter with
`min_interval = 15`, a first call at monotonic time 1 sleeps 14 (the
sentinel `_last_call = 0.0` makes the elapsed time 1), so the very first
call does block when the monotonic clock reads less than the interval. -/
theorem c8_first_call_blocks_counterexample :
    waitSleep (rateLimiterInit 15) 1 = 14 ∧
    ¬ waitSleep (rateLimiterInit 15) 1 = 0 := by
  constructor <;> norm_num [waitSleep, rateLimiterInit]

/-- C8 (amended): `wait()` returns no earlier than `min_interval` after
the stored previous-return time; a non-positive interval never sleeps;
the updated state stores the return time; and the first call of a fresh
limiter does not block provided the monotonic clock reads at least
`min_interval` (with the sentinel `_last_call = 0`, an earlier clock
reading produces a first-call sleep). -/
theorem c8_rate_limiter_wait (st : RateLimiterState) (now mi : ℚ) :
    (st.lastCall ≤ now →
      st.lastCall + st.minInterval ≤ now + waitSleep st now) ∧
    (st.minInterval ≤ 0 → st.lastCall ≤ now → waitSleep st now = 0) ∧
    ((waitRun st now).2.lastCall = now + waitSleep st now) ∧
    (mi ≤ now → waitSleep (rateLimiterInit mi) now = 0) := by
  refine ⟨?_, ?_, rfl, ?_⟩
  · intro hmono
    rw [waitSleep]
    by_cases h : 0 < st.minInterval - (now - st.lastCall)
    · rw [if_pos h]; linarith
    · rw [if_neg h]; push_neg at h; linarith
  · intro hmi hmono
    rw [waitSleep, if_neg (by linarith)]
  · intro hnow
    rw [waitSleep, rateLimiterInit, if_neg (by simp; linarith)]

/-- Witness for the amended C8: interval 15, previous return at 0, next
call at 20 — no sleep needed, and a fresh limiter first called at 20
does not block. -/
theorem c8_rate_limiter_wait_witness :
    ((15 : ℚ) ≤ 20 → waitSleep (rateLimiterInit 15) 20 = 0) ∧
    waitSleep (rateLimiterInit 15) 20 = 0 :=
  ⟨(c8_rate_limiter_wait (rateLimiterInit 15) 20 15).2.2.2,
   (c8_rate_limiter_wait (rateLimiterInit 15) 20 15).2.2.2 (by decide)⟩

theorem requestAux_success_step (resp : ℕ → UpResponse) (a rem : ℕ)
    (p : AVPayload) (hsu : successResp (resp a) = true)
    (hp : (resp a).body = some p) :
    requestAux resp a (rem + 1) = (Except.ok p, 1, 0) := by
  simp only [successResp, hp, Bool.and_eq_true, Bool.not_eq_true',
    beq_eq_false_iff_ne, ne_eq, Option.isNone_iff_eq_none] at hsu
  obtain ⟨⟨⟨hinfo, hst⟩, hnote⟩, herr⟩ := hsu
  simp only [requestAux, hp, hinfo, hnote, herr]
  rw [if_neg (by simp [hst])]

theorem requestAux_throttle_facts (r : UpResponse)
    (hth : throttledResp r = true) :
    ∃ p, r.body = some p ∧ p.information = none ∧
      (r.status = 429 ∨ p.note ≠ none) := by
  cases hb : r.body with
  | none => rw [throttledResp, hb] at hth; exact absurd hth (by simp)
  | some p =>
      rw [throttledResp, hb, Bool.and_eq_true] at hth
      obtain ⟨hinfo, hcond⟩ := hth
      refine ⟨p, rfl, Option.isNone_iff_eq_none.mp hinfo, ?_⟩
      simp only [Bool.or_eq_true, beq_iff_eq, Option.isSome_iff_ne_none,
        ne_eq] at hcond
      tauto

theorem requestAux_throttle_last (resp : ℕ → UpResponse) (a : ℕ)
    (hth : throttledResp (resp a) = true) :
    requestAux resp a 1 = (Except.error (throttleMsg (resp a)), 1, 0) := by
  obtain ⟨p, hb, hinfo, hcond⟩ := requestAux_throttle_facts (resp a) hth
  simp only [requestAux, hb, hinfo, throttleMsg]
  rw [if_pos hcond]
  simp

theorem requestAux_throttle_step (resp : ℕ → UpResponse) (a rem : ℕ)
    (hrem : rem ≠ 0) (hth : throttledResp (resp a) = true) :
    requestAux resp a (rem + 1) =
      ((requestAux resp (a + 1) rem).1,
       (requestAux resp (a + 1) rem).2.1 + 1,
       (requestAux resp (a + 1) rem).2.2 + 1) := by
  obtain ⟨p, hb, hinfo, hcond⟩ := requestAux_throttle_facts (resp a) hth
  simp only [requestAux, hb, hinfo]
  rw [if_pos hcond, if_neg hrem]

theorem requestAux_first_success (resp : ℕ → UpResponse) (p : AVPayload) :
    ∀ N a rem, 1 ≤ N → N ≤ rem →
    (∀ i, i + 1 < N → throttledResp (resp (a + i)) = true) →
    successResp (resp (a + (N - 1))) = true →
    (resp (a + (N - 1))).body = some p →
    requestAux resp a rem = (Except.ok p, N, N - 1) := by
  intro N
  induction N with
  | zero => intro a rem h1; exact absurd h1 (by omega)
  | succ n ih =>
      intro a rem h1 h2 hth hsu hp
      obtain ⟨rem2, rfl⟩ : ∃ r2, rem = r2 + 1 := ⟨rem - 1, by omega⟩
      cases n with
      | zero =>
          simpa using requestAux_success_step resp a rem2 p
            (by simpa using hsu) (by simpa using hp)
      | succ m =>
          have hth0 : throttledResp (resp a) = true := by
            have := hth 0 (by omega)
            simpa using this
          rw [requestAux_throttle_step resp a rem2 (by omega) hth0]
          have ihh := ih (a + 1) rem2 (by omega) (by omega)
            (fun i hi => by
              have h3 := hth (i + 1) (by omega)
              rwa [show a + (i + 1) = a + 1 + i by omega] at h3)
            (by
              have h4 : a + (m + 2 - 1) = a + 1 + (m + 1 - 1) := by omega
              rwa [h4] at hsu)
            (by
              have h4 : a + (m + 2 - 1) = a + 1 + (m + 1 - 1) := by omega
              rwa [h4] at hp)
          rw [ihh]
          rfl

theorem requestAux_exhaust (resp : ℕ → UpResponse) :
    ∀ rem a, 1 ≤ rem →
    (∀ i, i < rem → throttledResp (resp (a + i)) = true) →
    requestAux resp a rem =
      (Except.error (throttleMsg (resp (a + (rem - 1)))), rem, rem - 1) := by
  intro rem
  induction rem with
  | zero => intro a h1; exact absurd h1 (by omega)
  | succ n ih =>
      intro a h1 hth
      cases n with
      | zero =>
          simpa using requestAux_throttle_last resp a
            (by simpa using hth 0 (by omega))
      | succ m =>
          have hth0 : throttledResp (resp a) = true := by
            simpa using hth 0 (by omega)
          rw [requestAux_throttle_step resp a (m + 1) (by omega) hth0]
          rw [ih (a + 1) (by omega)
            (fun i hi => by
              have h3 := hth (i + 1) (by omega)
              rwa [show a + (i + 1) = a + 1 + i by omega] at h3)]
          rw [show a + 1 + (m + 1 - 1) = a + (m + 2 - 1) by omega]
          rfl

/-- C4: if the upstream throttles (HTTP 429 or a `"Note"` marker, with no
`"Information"` notice) the first N−1 attempts and attempt N (N within
the configured maximum) succeeds, `_request` returns that attempt's body
after exactly N rate-limited calls with N−1 fixed-backoff sleeps between
attempts; if all `max_retries` attempts are throttled, it raises a
provider error carrying the last attempt's throttle message
(`payload.get("Note", "Rate limited")`). -/
theorem c4_throttle_retry (resp : ℕ → UpResponse) (maxR N : ℕ)
    (p : AVPayload) :
    (1 ≤ N → N ≤ maxR →
      (∀ i, i + 1 < N → throttledResp (resp i) = true) →
      successResp (resp (N - 1)) = true →
      (resp (N - 1)).body = some p →
      avRequest resp maxR = (Except.ok p, N, N - 1)) ∧
    (1 ≤ maxR →
      (∀ i, i < maxR → throttledResp (resp i) = true) →
      avRequest resp maxR =
        (Except.error (throttleMsg (resp (maxR - 1))), maxR, maxR - 1)) := by
  constructor
  · intro h1 h2 hth hsu hp
    have h5 := requestAux_first_success resp p N 0 maxR h1 h2
      (fun i hi => by simpa using hth i hi)
      (by simpa using hsu) (by simpa using hp)
    simpa [avRequest] using h5
  · intro h1 hth
    have h5 := requestAux_exhaust resp maxR 0 h1
      (fun i hi => by simpa using hth i hi)
    simpa [avRequest] using h5

/-- Witness for C4: with `max_retries = 3` and the simulated upstream
throttling only attempt 1, the fetch succeeds on attempt 2 after exactly
2 rate-limited calls and 1 backoff sleep. -/
theorem c4_throttle_retry_witness :
    avRequest respThrottleOnce 3 =
      (Except.ok ⟨none, none, none, "payload"⟩, 2, 1) :=
  (c4_throttle_retry respThrottleOnce 3 2 ⟨none, none, none, "payload"⟩).1
    (by decide) (by decide)
    (fun i hi => by
      have h0 : i = 0 := by omega
      subst h0
      rfl)
    (by rfl) (by rfl)

end PFD
